import Mathlib

/-!
Verification of the `osdrv/config` configuration library: the schema trie
(`MapperNode`), the built-in converters, the weighted repository merge, the
"must" accessor family and the provider readiness gates.

The trie, key, converter and repository core are modelled from the spec (their
implementation files are not part of the analysed sources; only their tests,
callers and the provider implementations are). Provider `SetUp`/`Get` and the
`Must` accessor family are embedded directly from the sources.
-/

namespace Config

/-- Error values: Go errors created via fmt.Errorf, modelled as their message
string. -/
abbrev Err := String

/-- Modelled from the spec: the open, dynamically-typed `Value`
(`interface{}` in the sources), as a tagged variant over the representable
kinds the sources exercise: nil, int, string, bool, rune, pointer
indirection, and the composite mapping used as the intermediate
representation during composite assembly. -/
inductive Value where
  | vnil : Value
  | vint (n : Int) : Value
  | vstr (s : String) : Value
  | vbool (b : Bool) : Value
  | vchar (c : Char) : Value
  | vptr (v : Value) : Value
  | vmap (entries : List (String × Value)) : Value

/-- Modelled from the spec: a `Key` is an ordered, dot-separated sequence of
segments. -/
abbrev Key := List String

/-- The wildcard segment token. -/
def Wildcard : String := "*"

/-- The key separator character, `KeySepCh` in the sources. -/
def KeySepCh : String := "."

/-- Split a character list on the dot separator. -/
def splitDots : List Char → List Char → List String
  | acc, [] => [String.mk acc.reverse]
  | acc, c :: rest =>
    if c = '.' then String.mk acc.reverse :: splitDots [] rest
    else splitDots (c :: acc) rest

/-- Modelled from the spec: `NewKey` parses a dot-separated string into a
`Key`; the empty string yields the zero-segment key (the sources' insert test
treats `NewKey("")` as a key with no segments). -/
def NewKey (s : String) : Key :=
  if s = "" then [] else splitDots [] s.data

/-- Canonical joined string form of a key (`Key.String()` in the sources):
segments joined by the separator. -/
def keyStr (k : Key) : String :=
  String.intercalate KeySepCh k

/-- The `KeyValue` pair passed through every Mapper and Provider call. -/
structure KeyValue where
  Key : Key
  Val : Value

/-- Modelled from the spec: a `Converter` is a pure function
`Value -> (Value, error)` performing type coercion. -/
def Converter := Value → Except Err Value

/-- Modelled from the spec: a `Mapper` is the capability
`Map(KeyValue) -> (KeyValue, error)`, embedded as a function. -/
def Mapper := KeyValue → Except Err KeyValue

/-- Modelled from the spec: `NewConvMapper` wraps a Converter into a Mapper,
converting the value and keeping the key. -/
def NewConvMapper (c : Converter) : Mapper := fun kv =>
  match c kv.Val with
  | .ok v => .ok ⟨kv.Key, v⟩
  | .error e => .error e

/-- Modelled from the spec: the schema trie node: an optional Mapper and
children keyed by path segment (the Go `map[string]*MapperNode`, embedded as
an association list with distinct keys). -/
inductive MapperNode where
  | mk (mpr : Option Mapper) (children : List (String × MapperNode))

/-- The optional Mapper carried by a node (`Mpr` field in the sources). -/
def MapperNode.Mpr : MapperNode → Option Mapper
  | .mk m _ => m

/-- The children map of a node (`Children` field in the sources). -/
def MapperNode.Children : MapperNode → List (String × MapperNode)
  | .mk _ ch => ch

/-- Association-list lookup with string keys, embedding Go map indexing. -/
def alookup {α : Type} : List (String × α) → String → Option α
  | [], _ => none
  | (k, v) :: rest, s => if k = s then some v else alookup rest s

/-- Association-list insert-or-replace, embedding Go map assignment. -/
def aupsert {α : Type} : List (String × α) → String → α → List (String × α)
  | [], s, v => [(s, v)]
  | (k, w) :: rest, s, v =>
    if k = s then (s, v) :: rest else (k, w) :: aupsert rest s v

/-- A fresh empty trie node, `NewMapperNode()` in the sources. -/
def NewMapperNode : MapperNode := .mk none []

/-- The child of a node for a segment, or a fresh empty node when absent
(Go's get-or-create on the children map). -/
def childOr (ch : List (String × MapperNode)) (s : String) : MapperNode :=
  match alookup ch s with
  | some c => c
  | none => NewMapperNode

/-- Modelled from the spec: the descending part of `Insert` — descends or
creates one child per segment and attaches the mapper to the terminal node. -/
def MapperNode.InsertAux : MapperNode → Key → Mapper → MapperNode
  | .mk _ ch, [], m => .mk (some m) ch
  | .mk mp ch, s :: rest, m =>
    .mk mp (aupsert ch s ((childOr ch s).InsertAux rest m))

/-- Modelled from the spec: `Insert(key, mapper)` descends/creates one child
per segment of the key and attaches the mapper at the terminal node; inserting
a zero-segment key is a no-op and must not assign a Mapper to the root. -/
def MapperNode.Insert (t : MapperNode) (k : Key) (m : Mapper) : MapperNode :=
  if k.isEmpty then t else t.InsertAux k m

/-- Modelled from the spec: `Find(key)` descends one segment at a time,
preferring the child matching the concrete segment exactly and falling back to
the wildcard child only when no exact child exists; greedy and
non-backtracking. Returns the terminal node after consuming all segments. -/
def MapperNode.Find : MapperNode → Key → Option MapperNode
  | t, [] => some t
  | t, s :: rest =>
    match alookup t.Children s with
    | some c => c.Find rest
    | none =>
      match alookup t.Children Wildcard with
      | some c => c.Find rest
      | none => none

/-- The mapper reached by `Find`, when the terminal node carries one. -/
def MapperNode.FindMpr (t : MapperNode) (k : Key) : Option Mapper :=
  match t.Find k with
  | some n => n.Mpr
  | none => none

/-- Modelled from the spec: `Map(kv)` navigates the trie along the key with
the same exact-then-wildcard preference as `Find`; if a terminal node with a
Mapper is reached its result is returned verbatim (short-circuit, no field-wise
pre-conversion), otherwise `kv` passes through unchanged with no error. -/
def MapperNode.Map (t : MapperNode) (kv : KeyValue) : Except Err KeyValue :=
  match t.FindMpr kv.Key with
  | some m => m kv
  | none => .ok kv

/-- Modelled from the spec: a schema node is one of: a Mapper (attached
directly), a Converter (wrapped into a Mapper before attaching), a mapping
from segment name or `__self__` to sub-schema, or the nil schema (a no-op). -/
inductive Schema where
  | snil : Schema
  | mapper (m : Mapper) : Schema
  | conv (c : Converter) : Schema
  | node (entries : List (String × Schema)) : Schema

/-- The reserved segment name assigning a Mapper to the current node. -/
def SelfKey : String := "__self__"

mutual

/-- Modelled from the spec: recursive schema definition — carries the key path
accumulated so far and inserts mappers at the terminal paths; within a mapping
the `__self__` entry targets the current path and every other entry extends
the path by its segment name. -/
def MapperNode.DefineSchemaAux : MapperNode → Key → Schema → MapperNode
  | t, _, .snil => t
  | t, key, .mapper m => t.Insert key m
  | t, key, .conv c => t.Insert key (NewConvMapper c)
  | t, key, .node entries => MapperNode.DefineSchemaList t key entries

/-- Fold of `DefineSchemaAux` over the entries of a schema mapping. -/
def MapperNode.DefineSchemaList : MapperNode → Key → List (String × Schema) → MapperNode
  | t, _, [] => t
  | t, key, (s, sub) :: rest =>
    MapperNode.DefineSchemaList
      (MapperNode.DefineSchemaAux t (if s = SelfKey then key else key ++ [s]) sub)
      key rest

end

/-- Modelled from the spec: `DefineSchema(schema)` builds the trie from a
polymorphic schema value, starting from the empty key path at the root. -/
def MapperNode.DefineSchema (t : MapperNode) (s : Schema) : MapperNode :=
  t.DefineSchemaAux [] s

/-- Decimal-digit accumulator for integer parsing: consumes the remaining
characters, failing on the empty digit string or any non-digit. -/
def digitsToNat : List Char → Option Nat → Option Nat
  | [], acc => acc
  | c :: rest, acc =>
    if c.isDigit then
      digitsToNat rest (some ((acc.getD 0) * 10 + (c.toNat - '0'.toNat)))
    else none

/-- Base-10 integer parsing with an optional sign (the `strconv.Atoi`
acceptance shape): the empty string and any string with a non-digit after the
sign are rejected. -/
def parseInt (s : String) : Option Int :=
  match s.data with
  | '-' :: rest => (digitsToNat rest none).map (fun n => -(n : Int))
  | '+' :: rest => (digitsToNat rest none).map (fun n => (n : Int))
  | l => (digitsToNat l none).map (fun n => (n : Int))

/-- Modelled from the spec: the `ToInt` converter — accepts ints, pointers to
ints and integer-parsable strings; rejects every other shape. -/
def ToInt : Converter := fun v =>
  match v with
  | .vint n => .ok (.vint n)
  | .vptr (.vint n) => .ok (.vint n)
  | .vstr s =>
    match parseInt s with
    | some n => .ok (.vint n)
    | none => .error ("failed to convert " ++ s ++ " to int")
  | _ => .error "failed to convert value to int"

/-- Modelled from the spec: the `ToStr` converter — accepts strings, pointers
to strings and ints (formatted); rejects every other shape. -/
def ToStr : Converter := fun v =>
  match v with
  | .vstr s => .ok (.vstr s)
  | .vptr (.vstr s) => .ok (.vstr s)
  | .vint n => .ok (.vstr (toString n))
  | _ => .error "failed to convert value to string"

/-- Modelled from the spec: the `ToBool` converter — accepts bools, pointers
to bools, truthy/falsy strings and the ints 0 and 1; rejects every other
shape. -/
def ToBool : Converter := fun v =>
  match v with
  | .vbool b => .ok (.vbool b)
  | .vptr (.vbool b) => .ok (.vbool b)
  | .vstr s =>
    if s = "true" || s = "y" || s = "yes" || s = "1" then .ok (.vbool true)
    else if s = "false" || s = "n" || s = "no" || s = "0" then .ok (.vbool false)
    else .error ("failed to convert " ++ s ++ " to bool")
  | .vint n =>
    if n = 1 then .ok (.vbool true)
    else if n = 0 then .ok (.vbool false)
    else .error "failed to convert int to bool"
  | _ => .error "failed to convert value to bool"

/-- Whether an `Except` result is an error. -/
def isErr {α : Type} : Except Err α → Bool
  | .error _ => true
  | .ok _ => false

/-- Modelled from the spec: a registered provider as the repository's `Get`
path sees it — its weight (recorded at registration time) and its `Get`
capability, keyed by the canonical key string; `none` embeds the Go
`(_, false)` result. -/
structure ProviderM where
  weight : Int
  fetch : String → Option Value

/-- Stable insertion of a provider into a weight-sorted list: the provider
goes after every already-placed provider of greater or equal weight, so among
equal weights the earlier-registered provider stays first. -/
def insW (p : ProviderM) : List ProviderM → List ProviderM
  | [] => [p]
  | q :: qs => if q.weight < p.weight then p :: q :: qs else q :: insW p qs

/-- Modelled from the spec: order a registry entry's providers by descending
weight, breaking ties by registration order (stable insertion sort over the
registration-ordered list). -/
def sortW (l : List ProviderM) : List ProviderM :=
  l.foldl (fun acc p => insW p acc) []

/-- Modelled from the spec: exact-leaf resolution — try each registered
provider's `Get` in descending weight order and return the first hit. -/
def resolveLeaf (provs : List ProviderM) (ks : String) : Option Value :=
  (sortW provs).findSome? (fun p => p.fetch ks)

/-- Modelled from the spec: the repository state the query path reads — the
per-key provider registry (keys in canonical string form, providers in
registration order) and the active schema trie. -/
structure Repository where
  registry : List (String × List ProviderM)
  schema : MapperNode

/-- Modelled from the spec: the exact-leaf path of `Repository.Get` (§4.2
steps 1 and 3): resolve the key against its registry entry by descending
weight, then drive the schema trie's `Map` once at the key; the
composite-assembly branch (step 2) is not modelled — no claim depends on it.
A `Map` error surfaces as a miss, matching the two-valued `(value, found)`
signature the callers consume. -/
def Repository.getExact (r : Repository) (k : Key) : Option Value :=
  match alookup r.registry (keyStr k) with
  | none => none
  | some provs =>
    match resolveLeaf provs (keyStr k) with
    | none => none
    | some v =>
      match r.schema.Map ⟨k, v⟩ with
      | .ok kv => some kv.Val
      | .error _ => none

/-- The `Must` accessor: fetch a required key; a missing key aborts the
calling program, embedded as `none`. -/
def Must (r : Repository) (key : String) : Option Value :=
  r.getExact (NewKey key)

/-- The `MustStr` accessor: `Must` followed by a string type assertion; a
mismatched type aborts, embedded as `none`. -/
def MustStr (r : Repository) (key : String) : Option String :=
  match Must r key with
  | some (.vstr s) => some s
  | _ => none

/-- The `MustInt` accessor: `Must` followed by an int type assertion; a
mismatched type aborts, embedded as `none`. -/
def MustInt (r : Repository) (key : String) : Option Int :=
  match Must r key with
  | some (.vint n) => some n
  | _ => none

/-- The `MustBool` accessor: `Must` followed by a bool type assertion; a
mismatched type aborts, embedded as `none`. -/
def MustBool (r : Repository) (key : String) : Option Bool :=
  match Must r key with
  | some (.vbool b) => some b
  | _ => none

/-- Outcome of a provider's `SetUp` in the embedding: the returned error (if
any) and the provider's state at return, with the readiness gate recorded on
every return path exactly where the deferred `close` runs. -/
abbrev SetUpResult (σ : Type) := Except Err Unit × σ

/-- DefaultProvider: a static registry of default values behind a readiness
gate. -/
structure DefaultProviderM where
  weight : Int
  registry : List (String × Value)
  ready : Bool

/-- The key-registration loop of `DefaultProvider.SetUp`: registers each
registry key, aborting at the first registration error. -/
def dfltLoop (regKey : String → Except Err Unit) : List (String × Value) → Except Err Unit
  | [] => .ok ()
  | (k, _) :: rest =>
    match regKey k with
    | .error e => .error e
    | .ok _ => dfltLoop regKey rest

/-- DefaultProvider.SetUp: registers every key from the registry;
`defer close(dp.ready)` opens the gate on each return path, error or not. -/
def DefaultProviderM.SetUp (dp : DefaultProviderM)
    (regKey : String → Except Err Unit) : SetUpResult DefaultProviderM :=
  match dfltLoop regKey dp.registry with
  | .error e => (.error e, { dp with ready := true })
  | .ok _ => (.ok (), { dp with ready := true })

/-- DefaultProvider.Get: blocks on the readiness gate (a blocked call is
embedded as `none`), then looks the key up in the registry. -/
def DefaultProviderM.Get (dp : DefaultProviderM) (key : Key) :
    Option (Option KeyValue) :=
  if dp.ready then
    some (match alookup dp.registry (keyStr key) with
      | some v => some ⟨key, v⟩
      | none => none)
  else none

/-- The key canonicalisation of the env provider: underscores become dots,
double underscores (now double dots) become single underscores, lowercased. -/
def canonise (key : String) : String :=
  (((key.replace "_" ".").replace ".." "_")).toLower

/-- EnvProvider: environment-variable source with a name pfx and a readiness
gate. -/
structure EnvProviderM where
  weight : Int
  registry : List (String × Value)
  ready : Bool
  pfx : String

/-- Parse one environment entry after pfx stripping: split at the first `=`
into key and string value, or the whole entry with value `true`. -/
def parseEnvVar (s : String) : String × Value :=
  match s.splitOn "=" with
  | [] => (s, .vbool true)
  | [k] => (k, .vbool true)
  | k :: rest => (k, .vstr (String.intercalate "=" rest))

/-- The scan loop of `EnvProvider.SetUp`: keep entries with the pfx, strip it,
parse, canonise, record and register, aborting at the first registration
error. -/
def envLoop (pfx : String) (regKey : String → Except Err Unit) :
    List String → List (String × Value) → Except Err (List (String × Value))
  | [], acc => .ok acc
  | kv :: rest, acc =>
    if kv.startsWith pfx then
      let p := parseEnvVar (kv.drop pfx.length)
      let k := canonise p.1
      match regKey k with
      | .error e => .error e
      | .ok _ => envLoop pfx regKey rest (aupsert acc k p.2)
    else envLoop pfx regKey rest acc

/-- EnvProvider.SetUp: scans the environment (passed in as the `envVars`
oracle the sources use), builds a fresh registry and registers its keys;
`defer close(ep.ready)` opens the gate on each return path; the registry
field is replaced only on the success path, exactly as in the source. -/
def EnvProviderM.SetUp (ep : EnvProviderM) (vars : List String)
    (regKey : String → Except Err Unit) : SetUpResult EnvProviderM :=
  match envLoop ep.pfx regKey vars [] with
  | .error e => (.error e, { ep with ready := true })
  | .ok reg => (.ok (), { ep with registry := reg, ready := true })

/-- EnvProvider.Get: blocks on the readiness gate (a blocked call is embedded
as `none`), then looks the key up in the registry. -/
def EnvProviderM.Get (ep : EnvProviderM) (key : Key) :
    Option (Option KeyValue) :=
  if ep.ready then
    some (match alookup ep.registry (keyStr key) with
      | some v => some ⟨key, v⟩
      | none => none)
  else none

/-- The raw nested structure returned by parsing a YAML document. -/
inductive YVal where
  | leaf (v : Value) : YVal
  | node (entries : List (String × YVal)) : YVal

/-- The `flatten` helper of the YAML provider: nested maps become
dot-joined keys, leaves pass through. -/
def flatten : List (String × YVal) → List (String × Value)
  | [] => []
  | (k, .leaf v) :: rest => (k, v) :: flatten rest
  | (k, .node sub) :: rest =>
    (flatten sub).map (fun p => (k ++ KeySepCh ++ p.1, p.2)) ++ flatten rest

/-- The config-path key constant `CfgPathKey`. -/
def CfgPathKey : String := "config.path"

/-- YamlProvider: YAML-file source with a config-path indirection and a
readiness gate. -/
structure YamlProviderM where
  weight : Int
  source : String
  registry : List (String × Value)
  ready : Bool

/-- The registration loop of `YamlProvider.SetUp`: records each flattened
entry into the provider registry field and registers it, stopping at the
first registration error while keeping the entries recorded so far (the
source mutates `yp.registry` in place inside the loop). -/
def yamlLoop (regKey : String → Except Err Unit)
    (acc : List (String × Value)) :
    List (String × Value) → Except Err Unit × List (String × Value)
  | [] => (.ok (), acc)
  | (k, v) :: rest =>
    let acc' := aupsert acc k v
    match regKey k with
    | .error e => (.error e, acc')
    | .ok _ => yamlLoop regKey acc' rest

/-- YamlProvider.SetUp: resolves the source path through the repository when
unset (a non-string value makes the Go type assertion panic, which still runs
the deferred close), reads and flattens the file, and registers every
flattened key; `defer close(yp.ready)` opens the gate on every return path —
path-lookup failure, read failure, registration failure, panic or success. -/
def YamlProviderM.SetUp (yp : YamlProviderM)
    (repoGet : String → Option Value)
    (readRaw : String → Except Err (List (String × YVal)))
    (regKey : String → Except Err Unit) : SetUpResult YamlProviderM :=
  match (if yp.source.length = 0 then
      match repoGet CfgPathKey with
      | none => Except.error "Failed to get yaml config path from repo"
      | some (.vstr s) => Except.ok s
      | some _ => Except.error "panic: interface conversion"
    else Except.ok yp.source : Except Err String) with
  | .error e => (.error e, { yp with ready := true })
  | .ok src =>
    match readRaw src with
    | .error e => (.error e, { yp with source := src, ready := true })
    | .ok raw =>
      match yamlLoop regKey yp.registry (flatten raw) with
      | (.error e, reg) =>
        (.error e, { yp with source := src, registry := reg, ready := true })
      | (.ok _, reg) =>
        (.ok (), { yp with source := src, registry := reg, ready := true })

/-- YamlProvider.Get: blocks on the readiness gate (a blocked call is
embedded as `none`), then looks the key up in the registry. -/
def YamlProviderM.Get (yp : YamlProviderM) (key : Key) :
    Option (Option KeyValue) :=
  if yp.ready then
    some (match alookup yp.registry (keyStr key) with
      | some v => some ⟨key, v⟩
      | none => none)
  else none

/-- Schema-side path matching: segment by segment, the schema path segment
either equals the lookup segment or is the wildcard token. -/
def keyMatches : Key → Key → Bool
  | [], [] => true
  | a :: ps, b :: ls => (a == b || a == Wildcard) && keyMatches ps ls
  | _, _ => false

/-- Descent through exact children only (no wildcard fallback), used to state
the precedence invariant: the exact chain of a path survives wildcard-variant
insertions. -/
def MapperNode.FollowExact : MapperNode → Key → Option MapperNode
  | t, [] => some t
  | t, s :: rest =>
    match alookup t.Children s with
    | some c => c.FollowExact rest
    | none => none

/-- The mapper at the end of the exact-children chain, when it exists. -/
def MapperNode.ExactMpr (t : MapperNode) (k : Key) : Option Mapper :=
  match t.FollowExact k with
  | some n => n.Mpr
  | none => none

theorem alookup_aupsert_same {α : Type} (l : List (String × α)) (s : String) (v : α) :
    alookup (aupsert l s v) s = some v := by
  induction l with
  | nil => simp [aupsert, alookup]
  | cons hd tl ih =>
    obtain ⟨k, w⟩ := hd
    by_cases h : k = s
    · simp [aupsert, h, alookup]
    · simp [aupsert, h, alookup, ih]

theorem alookup_aupsert_other {α : Type} (l : List (String × α)) (s s' : String)
    (v : α) (hne : s' ≠ s) : alookup (aupsert l s v) s' = alookup l s' := by
  have hsn : ¬(s = s') := fun h => hne h.symm
  induction l with
  | nil => simp [aupsert, alookup, hsn]
  | cons hd tl ih =>
    obtain ⟨k, w⟩ := hd
    by_cases h : k = s
    · subst h
      simp [aupsert, alookup, hsn]
    · simp [aupsert, h, alookup, ih]

theorem exactMpr_nil (t : MapperNode) : t.ExactMpr [] = t.Mpr := rfl

theorem exactMpr_cons (mp : Option Mapper) (ch : List (String × MapperNode))
    (s : String) (rest : Key) :
    (MapperNode.mk mp ch).ExactMpr (s :: rest) =
      (match alookup ch s with
       | some c => c.ExactMpr rest
       | none => none) := by
  cases h : alookup ch s <;>
    simp [MapperNode.ExactMpr, MapperNode.FollowExact, MapperNode.Children, h]

theorem findMpr_nil (t : MapperNode) : t.FindMpr [] = t.Mpr := rfl

theorem findMpr_cons (mp : Option Mapper) (ch : List (String × MapperNode))
    (s : String) (rest : Key) :
    (MapperNode.mk mp ch).FindMpr (s :: rest) =
      (match alookup ch s with
       | some c => c.FindMpr rest
       | none =>
         match alookup ch Wildcard with
         | some c => c.FindMpr rest
         | none => none) := by
  cases h : alookup ch s
  · cases h' : alookup ch Wildcard <;>
      simp [MapperNode.FindMpr, MapperNode.Find, MapperNode.Children, h, h']
  · simp [MapperNode.FindMpr, MapperNode.Find, MapperNode.Children, h]

theorem insertAux_cons (mp : Option Mapper) (ch : List (String × MapperNode))
    (s : String) (rest : Key) (m : Mapper) :
    (MapperNode.mk mp ch).InsertAux (s :: rest) m =
      .mk mp (aupsert ch s ((childOr ch s).InsertAux rest m)) := rfl

theorem insertAux_empty_cons (a : String) (vs : Key) (m : Mapper) :
    NewMapperNode.InsertAux (a :: vs) m =
      .mk none [(a, NewMapperNode.InsertAux vs m)] := rfl

theorem exactMpr_insertAux (p : Key) (t : MapperNode) (m : Mapper) :
    (t.InsertAux p m).ExactMpr p = some m := by
  induction p generalizing t with
  | nil => cases t; rfl
  | cons s rest ih =>
    cases t with
    | mk mp ch =>
      rw [insertAux_cons, exactMpr_cons, alookup_aupsert_same]
      exact ih _

theorem keyMatches_nil_right (v : Key) (s : String) (rest : Key) :
    keyMatches v (s :: rest) = true → v ≠ [] := by
  intro h hv
  subst hv
  simp [keyMatches] at h

theorem exactMpr_variant_empty (v p : Key) (m : Mapper)
    (hm : keyMatches v p = true) (hne : v ≠ p) :
    (NewMapperNode.InsertAux v m).ExactMpr p = none := by
  induction v generalizing p with
  | nil =>
    cases p with
    | nil => exact absurd rfl hne
    | cons b ps => simp [keyMatches] at hm
  | cons a vs ih =>
    cases p with
    | nil => simp [keyMatches] at hm
    | cons b ps =>
      rw [keyMatches] at hm
      simp only [Bool.and_eq_true, Bool.or_eq_true, beq_iff_eq] at hm
      rw [insertAux_empty_cons, exactMpr_cons]
      by_cases hab : a = b
      · subst hab
        have hvp : vs ≠ ps := fun h => hne (by rw [h])
        simp [alookup, ih ps hm.2 hvp]
      · simp [alookup, hab]

theorem exactMpr_insertAux_variant (v p : Key) (t : MapperNode) (m : Mapper)
    (hm : keyMatches v p = true) (hne : v ≠ p) :
    (t.InsertAux v m).ExactMpr p = t.ExactMpr p := by
  induction v generalizing p t with
  | nil =>
    cases p with
    | nil => exact absurd rfl hne
    | cons b ps => simp [keyMatches] at hm
  | cons a vs ih =>
    cases p with
    | nil => simp [keyMatches] at hm
    | cons b ps =>
      rw [keyMatches] at hm
      simp only [Bool.and_eq_true, Bool.or_eq_true, beq_iff_eq] at hm
      cases t with
      | mk mp ch =>
        rw [insertAux_cons, exactMpr_cons, exactMpr_cons]
        by_cases hab : a = b
        · subst hab
          have hvp : vs ≠ ps := fun h => hne (by rw [h])
          rw [alookup_aupsert_same]
          cases hch : alookup ch a with
          | some c => simp [childOr, hch, ih ps c hm.2 hvp]
          | none => simp [childOr, hch, exactMpr_variant_empty vs ps m hm.2 hvp]
        · rw [alookup_aupsert_other ch a b _ (fun h => hab h.symm)]

theorem findMpr_of_exactMpr (p : Key) (t : MapperNode) (m : Mapper)
    (h : t.ExactMpr p = some m) : t.FindMpr p = some m := by
  induction p generalizing t with
  | nil => rw [findMpr_nil, ← exactMpr_nil, h]
  | cons s rest ih =>
    cases t with
    | mk mp ch =>
      rw [exactMpr_cons] at h
      rw [findMpr_cons]
      cases hch : alookup ch s with
      | some c =>
        rw [hch] at h
        simp only
        exact ih c h
      | none => rw [hch] at h; exact absurd h (by simp)

theorem keyMatches_refl (p : Key) : keyMatches p p = true := by
  induction p with
  | nil => rfl
  | cons s rest ih => simp [keyMatches, ih]

theorem findMpr_insertAux_matches (p l : Key) (m : Mapper)
    (hm : keyMatches p l = true) :
    (NewMapperNode.InsertAux p m).FindMpr l = some m := by
  induction p generalizing l with
  | nil =>
    cases l with
    | nil => rfl
    | cons b ls => simp [keyMatches] at hm
  | cons a ps ih =>
    cases l with
    | nil => simp [keyMatches] at hm
    | cons b ls =>
      rw [keyMatches] at hm
      simp only [Bool.and_eq_true, Bool.or_eq_true, beq_iff_eq] at hm
      rw [insertAux_empty_cons, findMpr_cons]
      by_cases hab : a = b
      · simp [alookup, hab, ih ls hm.2]
      · rcases hm.1 with h | h
        · exact absurd h hab
        · subst h
          have hb : ¬(("*" : String) = b) := hab
          simp [alookup, hb, Wildcard, ih ls hm.2]

theorem findMpr_newMapperNode (k : Key) : NewMapperNode.FindMpr k = none := by
  cases k <;> rfl

theorem map_newMapperNode (kv : KeyValue) : NewMapperNode.Map kv = .ok kv := by
  simp [MapperNode.Map, findMpr_newMapperNode]

theorem getExact_lookup (reg : List (String × List ProviderM))
    (provs : List ProviderM) (ks : Key)
    (h : alookup reg (keyStr ks) = some provs) :
    Repository.getExact ⟨reg, NewMapperNode⟩ ks
      = resolveLeaf provs (keyStr ks) := by
  cases hr : resolveLeaf provs (keyStr ks) <;>
    simp [Repository.getExact, h, hr, map_newMapperNode]

/-- Descending-weight order between providers: the later one is no heavier. -/
def wge (a b : ProviderM) : Prop := b.weight ≤ a.weight

theorem mem_insW (r : ProviderM) (l : List ProviderM) (x : ProviderM) :
    x ∈ insW r l ↔ x = r ∨ x ∈ l := by
  induction l with
  | nil => simp [insW]
  | cons q qs ih =>
    by_cases h : q.weight < r.weight
    · simp [insW, h, List.mem_cons]
    · simp [insW, h, List.mem_cons, ih]
      tauto

theorem insW_perm (r : ProviderM) (l : List ProviderM) :
    List.Perm (insW r l) (r :: l) := by
  induction l with
  | nil => simp [insW]
  | cons q qs ih =>
    by_cases h : q.weight < r.weight
    · simp [insW, h]
    · rw [show insW r (q :: qs) = q :: insW r qs from by simp [insW, h]]
      exact (ih.cons q).trans (List.Perm.swap r q qs)

theorem sortW_aux_perm (l : List ProviderM) :
    ∀ acc, List.Perm (List.foldl (fun acc p => insW p acc) acc l) (acc ++ l) := by
  induction l with
  | nil => intro acc; simp
  | cons p rest ih =>
    intro acc
    simp only [List.foldl_cons]
    refine (ih (insW p acc)).trans ?_
    refine ((insW_perm p acc).append_right rest).trans ?_
    exact List.perm_middle.symm

theorem sortW_perm (l : List ProviderM) : List.Perm (sortW l) l := by
  simpa using sortW_aux_perm l []

theorem insW_pairwise (r : ProviderM) (l : List ProviderM)
    (h : l.Pairwise wge) : (insW r l).Pairwise wge := by
  induction l with
  | nil => simp [insW, wge]
  | cons q qs ih =>
    obtain ⟨hq, hqs⟩ := List.pairwise_cons.mp h
    by_cases hlt : q.weight < r.weight
    · rw [show insW r (q :: qs) = r :: q :: qs from by simp [insW, hlt]]
      refine List.pairwise_cons.mpr ⟨?_, h⟩
      intro x hx
      rcases List.mem_cons.mp hx with rfl | hx'
      · exact le_of_lt hlt
      · exact le_trans (hq x hx') (le_of_lt hlt)
    · rw [show insW r (q :: qs) = q :: insW r qs from by simp [insW, hlt]]
      refine List.pairwise_cons.mpr ⟨?_, ih hqs⟩
      intro x hx
      rcases (mem_insW r qs x).mp hx with rfl | hx'
      · exact le_of_not_lt hlt
      · exact hq x hx'

theorem sortW_aux_pairwise (l : List ProviderM) :
    ∀ acc, acc.Pairwise wge →
      (List.foldl (fun acc p => insW p acc) acc l).Pairwise wge := by
  induction l with
  | nil => intro acc h; simpa using h
  | cons p rest ih =>
    intro acc h
    simp only [List.foldl_cons]
    exact ih _ (insW_pairwise p acc h)

theorem sortW_pairwise (l : List ProviderM) : (sortW l).Pairwise wge :=
  sortW_aux_pairwise l [] List.Pairwise.nil

theorem insW_self_split (p : ProviderM) (acc : List ProviderM) (ks : String)
    (h : ∀ q ∈ acc, p.weight ≤ q.weight → q.fetch ks = none) :
    ∃ a b, insW p acc = a ++ p :: b ∧ ∀ q ∈ a, q.fetch ks = none := by
  induction acc with
  | nil => exact ⟨[], [], rfl, by simp⟩
  | cons q qs ih =>
    by_cases hlt : q.weight < p.weight
    · exact ⟨[], q :: qs, by simp [insW, hlt], by simp⟩
    · obtain ⟨a, b, heq, hnone⟩ :=
        ih (fun x hx hw => h x (List.mem_cons_of_mem _ hx) hw)
      refine ⟨q :: a, b, ?_, ?_⟩
      · simp [insW, hlt, heq]
      · intro x hx
        rcases List.mem_cons.mp hx with rfl | hx'
        · exact h x (List.mem_cons_self _ _) (le_of_not_lt hlt)
        · exact hnone x hx'

theorem insW_preserve_split (r p : ProviderM) (a b : List ProviderM) (ks : String)
    (hpw : (a ++ p :: b).Pairwise wge)
    (hnone : ∀ q ∈ a, q.fetch ks = none)
    (hr : p.weight < r.weight → r.fetch ks = none) :
    ∃ a' b', insW r (a ++ p :: b) = a' ++ p :: b'
      ∧ ∀ q ∈ a', q.fetch ks = none := by
  induction a with
  | nil =>
    by_cases hlt : p.weight < r.weight
    · refine ⟨[r], b, by simp [insW, hlt], ?_⟩
      intro x hx
      rcases List.mem_singleton.mp hx with rfl
      exact hr hlt
    · exact ⟨[], insW r b, by simp [insW, hlt], by simp⟩
  | cons q a' ih =>
    obtain ⟨hq, hrest⟩ :=
      List.pairwise_cons.mp (show (q :: (a' ++ p :: b)).Pairwise wge from hpw)
    by_cases hlt : q.weight < r.weight
    · have hqp : p.weight ≤ q.weight := hq p (by simp)
      have hrn : r.fetch ks = none := hr (lt_of_le_of_lt hqp hlt)
      refine ⟨r :: q :: a', b, by simp [insW, hlt], ?_⟩
      intro x hx
      rcases List.mem_cons.mp hx with rfl | hx'
      · exact hrn
      · exact hnone x hx'
    · obtain ⟨a'', b'', heq, hn⟩ :=
        ih hrest (fun x hx => hnone x (List.mem_cons_of_mem _ hx))
      refine ⟨q :: a'', b'', ?_, ?_⟩
      · rw [show insW r ((q :: a') ++ p :: b) = q :: insW r (a' ++ p :: b) from
          by simp [insW, hlt], heq]
        rfl
      · intro x hx
        rcases List.mem_cons.mp hx with rfl | hx'
        · exact hnone x (List.mem_cons_self _ _)
        · exact hn x hx'

theorem foldl_insW_split (ks : String) (p : ProviderM) (l₂ : List ProviderM) :
    ∀ (acc a b : List ProviderM),
      acc = a ++ p :: b → acc.Pairwise wge →
      (∀ q ∈ a, q.fetch ks = none) →
      (∀ r ∈ l₂, p.weight < r.weight → r.fetch ks = none) →
      ∃ a' b', List.foldl (fun acc r => insW r acc) acc l₂ = a' ++ p :: b'
        ∧ ∀ q ∈ a', q.fetch ks = none := by
  induction l₂ with
  | nil =>
    intro acc a b heq _ hnone _
    exact ⟨a, b, by simpa using heq, hnone⟩
  | cons r rest ih =>
    intro acc a b heq hpw hnone hl
    subst heq
    simp only [List.foldl_cons]
    obtain ⟨a', b', heq', hn'⟩ :=
      insW_preserve_split r p a b ks hpw hnone
        (fun hw => hl r (List.mem_cons_self _ _) hw)
    exact ih (insW r (a ++ p :: b)) a' b' heq'
      (insW_pairwise r _ hpw) hn'
      (fun s hs hw => hl s (List.mem_cons_of_mem _ hs) hw)

theorem findSomeMem_split (f : ProviderM → Option Value) (a b : List ProviderM)
    (p : ProviderM) (v : Value)
    (hnone : ∀ q ∈ a, f q = none) (hp : f p = some v) :
    (a ++ p :: b).findSome? f = some v := by
  induction a with
  | nil => simp [List.findSome?, hp]
  | cons q a' ih =>
    have hq := hnone q (List.mem_cons_self _ _)
    simp [List.findSome?, hq,
      ih (fun x hx => hnone x (List.mem_cons_of_mem _ hx))]

/-- C1: for every path p of depth 1 to 3, inserting the exact path with a
mapper and then any collection of wildcard-substituted variants of p (each a
wildcard-matching path distinct from p) with another mapper, `Find(p)` still
returns the node carrying the exact mapper: the exact child is preferred over
the wildcard child at every level of the descent. -/
theorem claim_C1 (p : Key) (mExct mAstrx : Mapper) (vs : List Key)
    (h1 : 1 ≤ p.length) (h3 : p.length ≤ 3)
    (hv : ∀ v ∈ vs, keyMatches v p = true ∧ v ≠ p) :
    (vs.foldl (fun t v => t.Insert v mAstrx)
      (NewMapperNode.Insert p mExct)).FindMpr p = some mExct := by
  have hp : p ≠ [] := by
    intro h
    subst h
    simp at h1
  have hpe : p.isEmpty = false := by
    cases p with
    | nil => exact absurd rfl hp
    | cons a b => rfl
  apply findMpr_of_exactMpr
  have base : (NewMapperNode.Insert p mExct).ExactMpr p = some mExct := by
    simp only [MapperNode.Insert, hpe, Bool.false_eq_true, if_false]
    exact exactMpr_insertAux p NewMapperNode mExct
  suffices h : ∀ (ws : List Key) (t : MapperNode),
      (∀ v ∈ ws, keyMatches v p = true ∧ v ≠ p) →
      t.ExactMpr p = some mExct →
      (ws.foldl (fun t v => t.Insert v mAstrx) t).ExactMpr p = some mExct by
    exact h vs _ hv base
  intro ws
  induction ws with
  | nil =>
    intro t _ ht
    simpa using ht
  | cons v rest ih =>
    intro t hws ht
    simp only [List.foldl_cons]
    refine ih _ (fun w hw => hws w (List.mem_cons_of_mem _ hw)) ?_
    obtain ⟨hvm, hvne⟩ := hws v (List.mem_cons_self _ _)
    have hvnil : v ≠ [] := by
      cases p with
      | nil => exact absurd rfl hp
      | cons b ps => exact keyMatches_nil_right v b ps hvm
    have hve : v.isEmpty = false := by
      cases v with
      | nil => exact absurd rfl hvnil
      | cons a b => rfl
    simp only [MapperNode.Insert, hve, Bool.false_eq_true, if_false]
    rw [exactMpr_insertAux_variant v p t mAstrx hvm hvne]
    exact ht

/-- Witness for C1 at the depth-2 path foo.bar with all three wildcard
variants inserted. -/
theorem claim_C1_witness :
    (1 ≤ (["foo", "bar"] : Key).length)
    ∧ ((["foo", "bar"] : Key).length ≤ 3)
    ∧ (∀ v ∈ ([["foo", "*"], ["*", "bar"], ["*", "*"]] : List Key),
        keyMatches v ["foo", "bar"] = true ∧ v ≠ ["foo", "bar"])
    ∧ (([["foo", "*"], ["*", "bar"], ["*", "*"]] : List Key).foldl
        (fun t v => t.Insert v (fun _ => .error "astrx"))
        (NewMapperNode.Insert ["foo", "bar"] (fun kv => .ok kv))).FindMpr
        ["foo", "bar"] = some (fun kv => .ok kv) :=
  ⟨by decide, by decide, by decide,
   claim_C1 ["foo", "bar"] (fun kv => .ok kv) (fun _ => .error "astrx")
     [["foo", "*"], ["*", "bar"], ["*", "*"]] (by decide) (by decide) (by decide)⟩

/-- C2: `Map` does not pre-convert a composite input before invoking the
matched node's own `__self__` mapper: with a schema carrying a `__self__`
mapper F at foo and a child converter at bar, mapping the composite
value for key foo delivers the raw map to F unmodified and returns
F's result verbatim; the child converter is never applied first. -/
theorem claim_C2 (F : Mapper) :
    (NewMapperNode.DefineSchema
        (.node [("foo", .node [(SelfKey, .mapper F), ("bar", .conv ToInt)])])).Map
      ⟨NewKey "foo", .vmap [("bar", .vint 4)]⟩
    = F ⟨NewKey "foo", .vmap [("bar", .vint 4)]⟩ := rfl

/-- C3: for every key registered by two or more providers, `Get` tries the
registered providers in descending weight order — a weight-sorted permutation
of the registration list — and returns the first hit: writing the
registration-ordered entry as l1 ++ p :: l2, if p serves the key, no
strictly heavier registered provider serves it, and no earlier-registered
provider of equal weight serves it, then `Get` returns p's value — so the
highest-weight provider serving the key wins regardless of its registration
position, and among equal weights the first registered wins. -/
theorem claim_C3 (ks : Key) (reg : List (String × List ProviderM))
    (provs l₁ l₂ : List ProviderM) (p : ProviderM) (v : Value)
    (hreg : alookup reg (keyStr ks) = some provs)
    (_hlen : 2 ≤ provs.length)
    (hsplit : provs = l₁ ++ p :: l₂)
    (hp : p.fetch (keyStr ks) = some v)
    (hheavier : ∀ q ∈ provs, p.weight < q.weight → q.fetch (keyStr ks) = none)
    (hearlier : ∀ q ∈ l₁, q.weight = p.weight → q.fetch (keyStr ks) = none) :
    (sortW provs).Pairwise wge
    ∧ List.Perm (sortW provs) provs
    ∧ Repository.getExact ⟨reg, NewMapperNode⟩ ks = some v := by
  refine ⟨sortW_pairwise provs, sortW_perm provs, ?_⟩
  rw [getExact_lookup reg provs ks hreg]
  simp only [resolveLeaf]
  have hfold : sortW provs =
      List.foldl (fun acc r => insW r acc) (insW p (sortW l₁)) l₂ := by
    rw [hsplit]
    simp [sortW, List.foldl_append]
  rw [hfold]
  have hmem₁ : ∀ q ∈ sortW l₁, p.weight ≤ q.weight →
      q.fetch (keyStr ks) = none := by
    intro q hq hw
    have hql : q ∈ l₁ := (sortW_perm l₁).mem_iff.mp hq
    rcases lt_or_eq_of_le hw with hlt | heq2
    · have hqp : q ∈ provs := by
        rw [hsplit]
        exact List.mem_append_left _ hql
      exact hheavier q hqp hlt
    · exact hearlier q hql heq2.symm
  obtain ⟨a, b, heq, hnone⟩ := insW_self_split p (sortW l₁) (keyStr ks) hmem₁
  have hl₂ : ∀ r ∈ l₂, p.weight < r.weight → r.fetch (keyStr ks) = none := by
    intro r hr hw
    have hrp : r ∈ provs := by
      rw [hsplit]
      exact List.mem_append_right _ (List.mem_cons_of_mem _ hr)
    exact hheavier r hrp hw
  obtain ⟨a', b', heq', hn'⟩ :=
    foldl_insW_split (keyStr ks) p l₂ (insW p (sortW l₁)) a b heq
      (insW_pairwise p _ (sortW_pairwise l₁)) hnone hl₂
  rw [heq']
  exact findSomeMem_split _ a' b' p v hn' hp

/-- Heaviest provider of the C3 witness, registered first, serving nothing. -/
def provA : ProviderM := ⟨30, fun _ => none⟩

/-- Winning provider of the C3 witness: heaviest among those serving the
key. -/
def provP : ProviderM :=
  ⟨20, fun s => if s = "foo.bar" then some (.vint 1) else none⟩

/-- Equal-weight, later-registered provider of the C3 witness, also serving
the key. -/
def provB : ProviderM := ⟨20, fun _ => some (.vint 2)⟩

/-- Lightest provider of the C3 witness, also serving the key. -/
def provC : ProviderM := ⟨10, fun _ => some (.vint 3)⟩

/-- Witness for C3 on a four-provider registry entry for foo.bar: a heavier
provider with nothing to serve is skipped, an equal-weight later-registered
provider and a lighter provider both lose to provP. -/
theorem claim_C3_witness :
    ([provA, provP, provB, provC] : List ProviderM)
        = [provA] ++ provP :: [provB, provC]
    ∧ provP.fetch (keyStr ["foo", "bar"]) = some (.vint 1)
    ∧ (∀ q ∈ ([provA, provP, provB, provC] : List ProviderM),
        provP.weight < q.weight → q.fetch (keyStr ["foo", "bar"]) = none)
    ∧ (∀ q ∈ ([provA] : List ProviderM),
        q.weight = provP.weight → q.fetch (keyStr ["foo", "bar"]) = none)
    ∧ Repository.getExact
        ⟨[(keyStr ["foo", "bar"], [provA, provP, provB, provC])], NewMapperNode⟩
        ["foo", "bar"] = some (.vint 1) := by
  refine ⟨rfl, rfl, ?_, ?_, ?_⟩
  · intro q hq hw
    simp only [List.mem_cons, List.not_mem_nil, or_false] at hq
    rcases hq with rfl | rfl | rfl | rfl
    · rfl
    · exact absurd hw (by decide)
    · exact absurd hw (by decide)
    · exact absurd hw (by decide)
  · intro q hq _
    simp only [List.mem_singleton] at hq
    subst hq
    rfl
  · exact (claim_C3 ["foo", "bar"]
      [(keyStr ["foo", "bar"], [provA, provP, provB, provC])]
      [provA, provP, provB, provC] [provA] [provB, provC] provP (.vint 1)
      rfl (by decide) rfl rfl
      (by
        intro q hq hw
        simp only [List.mem_cons, List.not_mem_nil, or_false] at hq
        rcases hq with rfl | rfl | rfl | rfl
        · rfl
        · exact absurd hw (by decide)
        · exact absurd hw (by decide)
        · exact absurd hw (by decide))
      (by
        intro q hq _
        simp only [List.mem_singleton] at hq
        subst hq
        rfl)).2.2

/-- C4: `Map` is a passthrough whenever the trie resolves no terminal mapper
for the key: the input comes back unchanged and no error is produced. -/
theorem claim_C4 (t : MapperNode) (kv : KeyValue)
    (h : t.FindMpr kv.Key = none) : t.Map kv = .ok kv := by
  simp [MapperNode.Map, h]

/-- Witness for C4 on the empty schema. -/
theorem claim_C4_witness :
    NewMapperNode.FindMpr (NewKey "foo") = none
    ∧ NewMapperNode.Map ⟨NewKey "foo", .vint 42⟩ = .ok ⟨NewKey "foo", .vint 42⟩ :=
  ⟨rfl, claim_C4 NewMapperNode ⟨NewKey "foo", .vint 42⟩ rfl⟩

/-- C5: an error returned by the resolved mapper propagates from `Map`
immediately and unwrapped. -/
theorem claim_C5 (t : MapperNode) (kv : KeyValue) (m : Mapper) (e : Err)
    (hf : t.FindMpr kv.Key = some m) (he : m kv = .error e) :
    t.Map kv = .error e := by
  simp [MapperNode.Map, hf, he]

/-- Witness for C5 with an always-failing mapper at foo. -/
theorem claim_C5_witness :
    (NewMapperNode.DefineSchema
        (.node [("foo",
          .mapper (fun _ => .error "This mapper returns an error"))])).FindMpr
        (NewKey "foo")
      = some (fun _ => Except.error "This mapper returns an error")
    ∧ (NewMapperNode.DefineSchema
        (.node [("foo",
          .mapper (fun _ => .error "This mapper returns an error"))])).Map
        ⟨NewKey "foo", .vint 42⟩
      = .error "This mapper returns an error" :=
  ⟨rfl, claim_C5 _ ⟨NewKey "foo", .vint 42⟩ _ _ rfl rfl⟩

/-- C6: the root never receives a Mapper through the root-level entry points:
inserting the zero-segment key is a no-op (the root's mapper stays nil), and
a bare Mapper or Converter given as the entire top-level schema is discarded
rather than attached to the root node. -/
theorem claim_C6 (t : MapperNode) (m : Mapper) (c : Converter) :
    t.Insert (NewKey "") m = t
    ∧ (NewMapperNode.Insert (NewKey "") m).Mpr = none
    ∧ t.DefineSchema (.mapper m) = t
    ∧ t.DefineSchema (.conv c) = t :=
  ⟨rfl, rfl, rfl, rfl⟩

/-- C7: a single path inserted into an empty trie is found by every concrete
lookup path it matches — the exact same path in particular — with a wildcard
segment in the inserted path matching any concrete segment at its position. -/
theorem claim_C7 (p l : Key) (m : Mapper) (hp : p ≠ [])
    (hm : keyMatches p l = true) :
    (NewMapperNode.Insert p m).FindMpr l = some m
    ∧ (NewMapperNode.Insert p m).FindMpr p = some m := by
  have hpe : p.isEmpty = false := by
    cases p with
    | nil => exact absurd rfl hp
    | cons a b => rfl
  simp only [MapperNode.Insert, hpe, Bool.false_eq_true, if_false]
  exact ⟨findMpr_insertAux_matches p l m hm,
    findMpr_insertAux_matches p p m (keyMatches_refl p)⟩

/-- Witness for C7 at an inserted wildcard path and a concrete lookup. -/
theorem claim_C7_witness :
    ((["foo", "*", "baz"] : Key) ≠ [])
    ∧ keyMatches ["foo", "*", "baz"] ["foo", "bar", "baz"] = true
    ∧ (NewMapperNode.Insert ["foo", "*", "baz"] (fun kv => .ok kv)).FindMpr
        ["foo", "bar", "baz"] = some (fun kv => .ok kv)
    ∧ (NewMapperNode.Insert ["foo", "*", "baz"] (fun kv => .ok kv)).FindMpr
        ["foo", "*", "baz"] = some (fun kv => .ok kv) :=
  ⟨by decide, by decide,
   (claim_C7 ["foo", "*", "baz"] ["foo", "bar", "baz"] (fun kv => .ok kv)
     (by decide) (by decide)).1,
   (claim_C7 ["foo", "*", "baz"] ["foo", "bar", "baz"] (fun kv => .ok kv)
     (by decide) (by decide)).2⟩

/-- C8: the built-in converters satisfy the concrete coercion table. -/
theorem claim_C8 :
    ToInt (.vstr "42") = .ok (.vint 42)
    ∧ ToInt (.vint 42) = .ok (.vint 42)
    ∧ ToInt (.vptr (.vint 42)) = .ok (.vint 42)
    ∧ isErr (ToInt (.vbool true)) = true
    ∧ isErr (ToInt (.vstr "")) = true
    ∧ isErr (ToInt .vnil) = true
    ∧ ToBool (.vstr "y") = .ok (.vbool true)
    ∧ ToBool (.vint 1) = .ok (.vbool true)
    ∧ isErr (ToBool (.vstr "asdf")) = true
    ∧ ToStr (.vint 42) = .ok (.vstr "42") :=
  ⟨rfl, rfl, rfl, rfl, rfl, rfl, rfl, rfl, rfl, rfl⟩

/-- C9: the must accessor family returns the fetched value when the key is
present and of the requested type, and aborts (never a default) on a missing
key or a mismatched type. -/
theorem claim_C9 (r : Repository) (k : String) :
    (∀ v, r.getExact (NewKey k) = some v → Must r k = some v)
    ∧ (r.getExact (NewKey k) = none → Must r k = none)
    ∧ (∀ s, r.getExact (NewKey k) = some (.vstr s) → MustStr r k = some s)
    ∧ (∀ v, r.getExact (NewKey k) = some v → (∀ s, v ≠ .vstr s) →
        MustStr r k = none)
    ∧ (r.getExact (NewKey k) = none → MustStr r k = none)
    ∧ (∀ n, r.getExact (NewKey k) = some (.vint n) → MustInt r k = some n)
    ∧ (∀ v, r.getExact (NewKey k) = some v → (∀ n, v ≠ .vint n) →
        MustInt r k = none)
    ∧ (r.getExact (NewKey k) = none → MustInt r k = none)
    ∧ (∀ b, r.getExact (NewKey k) = some (.vbool b) → MustBool r k = some b)
    ∧ (∀ v, r.getExact (NewKey k) = some v → (∀ b, v ≠ .vbool b) →
        MustBool r k = none)
    ∧ (r.getExact (NewKey k) = none → MustBool r k = none) := by
  refine ⟨fun v h => ?_, fun h => ?_, fun s h => ?_, fun v h hne => ?_,
    fun h => ?_, fun n h => ?_, fun v h hne => ?_, fun h => ?_,
    fun b h => ?_, fun v h hne => ?_, fun h => ?_⟩
  · simp [Must, h]
  · simp [Must, h]
  · simp [MustStr, Must, h]
  · cases v <;> first
      | exact absurd rfl (hne _)
      | simp [MustStr, Must, h]
  · simp [MustStr, Must, h]
  · simp [MustInt, Must, h]
  · cases v <;> first
      | exact absurd rfl (hne _)
      | simp [MustInt, Must, h]
  · simp [MustInt, Must, h]
  · simp [MustBool, Must, h]
  · cases v <;> first
      | exact absurd rfl (hne _)
      | simp [MustBool, Must, h]
  · simp [MustBool, Must, h]

/-- A one-provider repository serving the string x under key a, for the C9
witness. -/
def mustRepo : Repository :=
  ⟨[("a", [ProviderM.mk 1 (fun s => if s = "a" then some (.vstr "x") else none)])],
   NewMapperNode⟩

/-- Witness for C9: hit, typed hit, typed mismatch and miss on a concrete
repository. -/
theorem claim_C9_witness :
    mustRepo.getExact (NewKey "a") = some (.vstr "x")
    ∧ Must mustRepo "a" = some (.vstr "x")
    ∧ MustStr mustRepo "a" = some "x"
    ∧ MustInt mustRepo "a" = none
    ∧ mustRepo.getExact (NewKey "b") = none
    ∧ Must mustRepo "b" = none :=
  ⟨rfl, (claim_C9 mustRepo "a").1 _ rfl, (claim_C9 mustRepo "a").2.2.1 "x" rfl,
   (claim_C9 mustRepo "a").2.2.2.2.2.2.1 _ rfl (fun _ h => Value.noConfusion h),
   rfl, (claim_C9 mustRepo "b").2.1 rfl⟩

/-- C10: the built-in providers open their readiness gate on every return
path of `SetUp` — success or error — so a `Get` issued after `SetUp` has
returned never blocks on the gate. -/
theorem claim_C10
    (dp : DefaultProviderM) (rk₁ : String → Except Err Unit)
    (ep : EnvProviderM) (vars : List String) (rk₂ : String → Except Err Unit)
    (yp : YamlProviderM) (rg : String → Option Value)
    (rr : String → Except Err (List (String × YVal)))
    (rk₃ : String → Except Err Unit) (k₁ k₂ k₃ : Key) :
    ((dp.SetUp rk₁).2.ready = true
      ∧ ((dp.SetUp rk₁).2.Get k₁).isSome = true)
    ∧ ((ep.SetUp vars rk₂).2.ready = true
      ∧ ((ep.SetUp vars rk₂).2.Get k₂).isSome = true)
    ∧ ((yp.SetUp rg rr rk₃).2.ready = true
      ∧ ((yp.SetUp rg rr rk₃).2.Get k₃).isSome = true) := by
  refine ⟨⟨?_, ?_⟩, ⟨?_, ?_⟩, ⟨?_, ?_⟩⟩
  · cases h : dfltLoop rk₁ dp.registry <;>
      simp [DefaultProviderM.SetUp, h]
  · cases h : dfltLoop rk₁ dp.registry <;>
      simp [DefaultProviderM.SetUp, h, DefaultProviderM.Get]
  · cases h : envLoop ep.pfx rk₂ vars [] <;>
      simp [EnvProviderM.SetUp, h]
  · cases h : envLoop ep.pfx rk₂ vars [] <;>
      simp [EnvProviderM.SetUp, h, EnvProviderM.Get]
  · unfold YamlProviderM.SetUp
    split
    · rfl
    · split
      · rfl
      · split <;> rfl
  · unfold YamlProviderM.SetUp
    split
    · rfl
    · split
      · rfl
      · split <;> rfl

end Config
